import Mathlib

/-!
Shallow embedding of the pdf-text-extractor pipeline (`src/main.rs`) and
proofs about its components: font decoding via a custom code-to-Unicode
table, CMap (`endbfchar`) parsing, the page-content interpreter state
machine, row merging, and the superscript/subscript heuristic.

Conventions of the embedding:
* bytes are `Nat` values below 256; 16-bit codes are `Nat` values below 65536;
* a `BTreeMap` is embedded as an association list sorted strictly by key,
  with its `insert` / `entry(..).or_insert(0) += 1` operations made explicit;
* a Rust `panic!` / `unwrap` / `expect` failure is modelled as `none` of an
  `Option`-valued function;
* the external library routine `lopdf::Document::decode_text` (used only on
  the legacy-encoding branch of `Font::decode`, and not code of this
  repository) is a parameter `decodeText` of the functions that call it.
-/

/-- Model of the Rust struct `Font` (main.rs lines 10-13): a declared legacy
encoding name plus an optional custom code-to-Unicode table
(`BTreeMap<u32, u32>` embedded as a key-sorted association list). -/
structure Font where
  encoding : String
  unicode_map : Option (List (Nat × Nat))
deriving Repr, DecidableEq

/-- Model of the Rust struct `TextChunk` (main.rs lines 31-36). -/
structure TextChunk where
  text : String
  x : Int
  y : Int
deriving Repr, DecidableEq

/-- Grouping performed by `text.chunks_exact(2)` combined with
`u16::from_be_bytes` (main.rs lines 20-21): consecutive byte pairs become
big-endian 16-bit codes; `chunks_exact` silently drops a trailing odd byte. -/
def toCodes : List Nat → List Nat
  | b1 :: b2 :: rest => (b1 * 256 + b2) :: toCodes rest
  | _ => []

/-- Model of `unicode_map.get(&code).unwrap_or(&code)` (main.rs line 22):
look the code up in the table, falling back to the code itself. -/
def mappedScalar (unicode_map : List (Nat × Nat)) (code : Nat) : Nat :=
  (List.lookup code unicode_map).getD code

/-- Model of `std::char::from_u32(code).unwrap()` (main.rs line 23): `none`
models the panic on an invalid Unicode scalar value. -/
def charFromU32 (code : Nat) : Option Char :=
  if code.isValidChar then some (Char.ofNat code) else none

/-- Loop body of the custom-table branch of `Font::decode`
(main.rs lines 19-24), acting on the already-grouped 16-bit codes. -/
def decodeCodes (unicode_map : List (Nat × Nat)) : List Nat → Option (List Char)
  | [] => some []
  | code :: rest => do
    let c ← charFromU32 (mappedScalar unicode_map code)
    let cs ← decodeCodes unicode_map rest
    pure (c :: cs)

/-- Model of `Font::decode` (main.rs lines 16-28).  `decodeText` stands for
the external `lopdf::Document::decode_text` used on the legacy-encoding
branch; `none` models a panic inside the custom-table branch. -/
def Font.decode (decodeText : String → List Nat → String) (font : Font)
    (text : List Nat) : Option String :=
  match font.unicode_map with
  | some unicode_map => (decodeCodes unicode_map (toCodes text)).map String.mk
  | none => some (decodeText font.encoding text)

/-- Model of `merge_text_rows`'s loop (main.rs lines 205-214) once the
accumulator `last_text_chunk` holds its first chunk: a next chunk with the
same `y` has its text appended to the accumulator, otherwise the accumulator
is flushed and restarted from the next chunk.  The final accumulator is
flushed at end of input (main.rs lines 215-217). -/
def mergeAux (last_text_chunk : TextChunk) : List TextChunk → List TextChunk
  | [] => [last_text_chunk]
  | text_chunk :: rest =>
    if last_text_chunk.y = text_chunk.y then
      mergeAux { last_text_chunk with
                 text := last_text_chunk.text ++ text_chunk.text } rest
    else
      last_text_chunk :: mergeAux text_chunk rest

/-- Model of `merge_text_rows` (main.rs lines 202-219). -/
def merge_text_rows : List TextChunk → List TextChunk
  | [] => []
  | text_chunk :: rest => mergeAux text_chunk rest

/-- Model of `*upward_offsets.entry(key).or_insert(0) += 1` (main.rs
line 155) on a `BTreeMap<i32, i32>` embedded as a key-sorted list. -/
def bumpEntry (key : Int) : List (Int × Nat) → List (Int × Nat)
  | [] => [(key, 1)]
  | (k, v) :: rest =>
    if key < k then (key, 1) :: (k, v) :: rest
    else if key = k then (k, v + 1) :: rest
    else (k, v) :: bumpEntry key rest

/-- Loop body of phase-1 offset discovery (main.rs lines 151-158): tally
`-offset` when `offset = text_chunk.y - previous_y` is negative, then set
`previous_y` to the current chunk's `y`. -/
def tallyUpward (previous_y : Int) (hist : List (Int × Nat)) :
    List TextChunk → List (Int × Nat)
  | [] => hist
  | text_chunk :: rest =>
    let offset := text_chunk.y - previous_y
    tallyUpward text_chunk.y
      (if offset < 0 then bumpEntry (-offset) hist else hist) rest

/-- Phase-1 offset histogram of `main` (main.rs lines 149-158): note that
`previous_y` starts at `0` while the iteration skips the first merged row,
so the first tallied difference is the second row's `y` minus `0`. -/
def upward_offsets (text_chunks : List TextChunk) : List (Int × Nat) :=
  tallyUpward 0 [] (text_chunks.drop 1)

/-- Folding step of Rust's `Iterator::max_by_key` compared on the count
component: the running best is kept only when its count is strictly
greater, so on equal counts the later element replaces it (Rust documents
that `max_by_key` returns the last maximal element). -/
def maxByCountAux (best : Int × Nat) : List (Int × Nat) → Int × Nat
  | [] => best
  | p :: rest =>
    if best.2 > p.2 then maxByCountAux best rest else maxByCountAux p rest

/-- Model of `upward_offsets.iter().max_by_key(|(_, &count)| count)`
(main.rs lines 159-162), returning the chosen key (the superscript offset);
`none` corresponds to the `expect("No superscript offset")` panic on an
empty histogram. -/
def maxByCount : List (Int × Nat) → Option Int
  | [] => none
  | p :: rest => some (maxByCountAux p rest).1

/-- Model of `format!("<{}>{}</{}>", tag, text, tag)` (main.rs line 182). -/
def wrapTag (tag : String) (text : String) : String :=
  "<" ++ tag ++ ">" ++ text ++ "</" ++ tag ++ ">"

/-- Tracked state of phase-2 reclassification (main.rs lines 166-167). -/
structure ReclassState where
  last_x : Int
  last_y : Int
deriving Repr, DecidableEq

/-- Loop body of phase-2 reclassification (main.rs lines 168-191): a chunk
whose `x` moved backwards is a definite new line; otherwise a nonzero offset
from `last_y` of magnitude at most the superscript offset is wrapped in a
`sub`/`sup` marker and pinned to the previous baseline (`last_y` is kept);
any other chunk starts an ordinary new baseline. -/
def reclassifyStep (superscript_offset : Int) (s : ReclassState)
    (text_chunk : TextChunk) : ReclassState × TextChunk :=
  if text_chunk.x < s.last_x then
    ({ last_x := text_chunk.x, last_y := text_chunk.y }, text_chunk)
  else
    let offset := text_chunk.y - s.last_y
    if |offset| ≤ superscript_offset ∧ offset ≠ 0 then
      let html_tag_name := if offset > 0 then "sub" else "sup"
      ({ last_x := text_chunk.x, last_y := s.last_y },
       { text := wrapTag html_tag_name text_chunk.text,
         x := text_chunk.x, y := s.last_y })
    else
      ({ last_x := text_chunk.x, last_y := text_chunk.y }, text_chunk)

/-- Phase-2 reclassification loop over the merged rows (main.rs
lines 165-191), starting from `last_x = last_y = 0`. -/
def reclassify (superscript_offset : Int) (s : ReclassState) :
    List TextChunk → List TextChunk
  | [] => []
  | text_chunk :: rest =>
    let step := reclassifyStep superscript_offset s text_chunk
    step.2 :: reclassify superscript_offset step.1 rest

/-- Operand of a content-stream operation (`lopdf::Object`, restricted to
the variants the interpreter inspects).  `real r` carries the value of the
Rust `f32` already truncated toward zero to an integer, which is all the
interpreter ever uses of it (`x as i32` on main.rs lines 123 and 131). -/
inductive Obj where
  | integer (i : Int)
  | real (r : Int)
  | name (n : String)
  | string (bytes : List Nat)
  | other
deriving Repr, DecidableEq

/-- One decoded content-stream operation (`lopdf::content::Operation`). -/
structure Operation where
  operator : String
  operands : List Obj
deriving Repr, DecidableEq

/-- Model of `Object::as_str` on an `endbfchar` operand followed by
`try_into::<[u8; 2]>` and `u16::from_be_bytes` (main.rs lines 239-257):
the operand must be a byte string of length exactly 2; `none` models the
two `expect` panics (non-string operand, wrong width). -/
def operandToU16 : Obj → Option Nat
  | .string [b1, b2] => some (b1 * 256 + b2)
  | _ => none

/-- Model of a key-overwriting `BTreeMap::insert` on a key-sorted
association list (main.rs line 263). -/
def mapInsert (key value : Nat) : List (Nat × Nat) → List (Nat × Nat)
  | [] => [(key, value)]
  | (k, v) :: rest =>
    if key < k then (key, value) :: (k, v) :: rest
    else if key = k then (k, value) :: rest
    else (k, v) :: mapInsert key value rest

/-- Pair-by-pair processing of the operands of one `endbfchar` instruction
(main.rs lines 235-264): decode the two operands of each chunk as 16-bit
big-endian codes and insert `key → value`; the final `| _ => none` arm is
unreachable once the even-operand-count assertion has passed. -/
def insertBfChars (result : List (Nat × Nat)) :
    List Obj → Option (List (Nat × Nat))
  | [] => some result
  | op1 :: op2 :: rest => do
    let key ← operandToU16 op1
    let value ← operandToU16 op2
    insertBfChars (mapInsert key value result) rest
  | _ => none

/-- Handling of a single `endbfchar` instruction (main.rs lines 229-265):
the `assert!` that the operand count is even (`none` models its panic),
then the pair-by-pair insertion. -/
def parseEndBfChar (result : List (Nat × Nat)) (operands : List Obj) :
    Option (List (Nat × Nat)) :=
  if operands.length % 2 = 0 then insertBfChars result operands else none

/-- Loop of `parse_unicode_map` over the decoded operations (main.rs
lines 227-268): only `endbfchar` instructions contribute; every other
operator is ignored. -/
def parseUnicodeMapOps (result : List (Nat × Nat)) :
    List Operation → Option (List (Nat × Nat))
  | [] => some result
  | operation :: rest =>
    if operation.operator = "endbfchar" then do
      let result ← parseEndBfChar result operation.operands
      parseUnicodeMapOps result rest
    else
      parseUnicodeMapOps result rest

/-- Model of `parse_unicode_map` (main.rs lines 221-270), starting from an
empty table; `none` models any of its panics. -/
def parse_unicode_map (operations : List Operation) :
    Option (List (Nat × Nat)) :=
  parseUnicodeMapOps [] operations

/-- Per-page mutable state of the content interpreter (main.rs
lines 87-92). -/
structure PageState where
  current_font_id : Option String
  in_text : Bool
  current_text : String
  x : Int
  y : Int
deriving Repr, DecidableEq

/-- Model of the two `match` arms extracting a `Tm` translation component
(main.rs lines 121-136): an integer or real operand yields its (truncated)
integer value, anything else panics. -/
def numericOperand : Obj → Option Int
  | .integer i => some i
  | .real r => some r
  | _ => none

/-- One step of the content-interpreter state machine of `main`
(main.rs lines 99-141), threading the document-wide `text_chunks` list;
`none` models an `unwrap`/`expect`/`panic!` failure, and any operator
without a matching arm is a no-op. -/
def interpretOp (decodeText : String → List Nat → String)
    (fonts : List (String × Font)) (st : PageState × List TextChunk)
    (operation : Operation) : Option (PageState × List TextChunk) :=
  let s := st.1
  let text_chunks := st.2
  match operation.operator with
  | "BT" => some ({ s with in_text := true }, text_chunks)
  | "ET" =>
    some ({ s with in_text := false, current_text := "" },
          text_chunks ++ [{ text := s.current_text, x := s.x, y := s.y }])
  | "Tf" =>
    match operation.operands.get? 0 with
    | some (.name font_id) =>
      some ({ s with current_font_id := some font_id }, text_chunks)
    | _ => none
  | "Tj" =>
    if s.in_text then
      match operation.operands.get? 0 with
      | some (.string text) => do
        let font_id ← s.current_font_id
        let font ← List.lookup font_id fonts
        let decoded ← Font.decode decodeText font text
        some ({ s with current_text := s.current_text ++ decoded },
              text_chunks)
      | _ => none
    else
      some (s, text_chunks)
  | "Tm" => do
    let op4 ← operation.operands.get? 4
    let new_x ← numericOperand op4
    let op5 ← operation.operands.get? 5
    let new_y ← numericOperand op5
    some ({ s with x := new_x, y := new_y }, text_chunks)
  | _ => some (s, text_chunks)

/-- Interpretation of one page's decoded operation list (the `for operation
in ...` loop of main.rs lines 94-142), left to right. -/
def interpretPage (decodeText : String → List Nat → String)
    (fonts : List (String × Font)) :
    PageState × List TextChunk → List Operation →
    Option (PageState × List TextChunk)
  | st, [] => some st
  | st, operation :: rest => do
    let st2 ← interpretOp decodeText fonts st operation
    interpretPage decodeText fonts st2 rest

/-! ## Helper lemmas about the custom-table decode path -/

theorem char_toNat_ofNat (n : Nat) (h : n.isValidChar) :
    (Char.ofNat n).toNat = n := by
  unfold Char.ofNat
  rw [dif_pos h]
  rfl

theorem charFromU32_of_valid (n : Nat) (h : n.isValidChar) :
    charFromU32 n = some (Char.ofNat n) := by
  simp [charFromU32, h]

theorem decodeCodes_all_valid (unicode_map : List (Nat × Nat)) :
    ∀ codes : List Nat,
      (∀ code ∈ codes, (mappedScalar unicode_map code).isValidChar) →
      ∃ cs : List Char, decodeCodes unicode_map codes = some cs ∧
        cs.map Char.toNat = codes.map (mappedScalar unicode_map) := by
  intro codes
  induction codes with
  | nil => exact fun _ => ⟨[], rfl, rfl⟩
  | cons code rest ih =>
    intro h
    have hc := h code (List.mem_cons_self _ _)
    obtain ⟨cs, hcs, hmap⟩ :=
      ih (fun c hmem => h c (List.mem_cons_of_mem _ hmem))
    refine ⟨Char.ofNat (mappedScalar unicode_map code) :: cs, ?_, ?_⟩
    · simp [decodeCodes, charFromU32_of_valid _ hc, hcs]
    · simp [hmap, char_toNat_ofNat _ hc]

theorem toCodes_append_singleton (b : Nat) :
    ∀ text : List Nat, text.length % 2 = 0 →
      toCodes (text ++ [b]) = toCodes text
  | [], _ => rfl
  | [_], h => by simp at h
  | b1 :: b2 :: rest, h => by
    have h2 : rest.length % 2 = 0 := by
      simp only [List.length_cons] at h
      omega
    have ih := toCodes_append_singleton b rest h2
    show toCodes (b1 :: b2 :: (rest ++ [b])) = toCodes (b1 :: b2 :: rest)
    simp only [toCodes]
    exact congrArg _ ih

/-! ## Claim theorems: decoding (C1, C4) -/

/-- C1 (counterexample).  The claim fails as stated: on the even-length
input `[0xD8, 0x00]` with a font whose custom table is present but does not
contain the code `0xD800`, `decode` does not return the character of scalar
value `0xD800` — no such character exists (surrogate range) and the Rust
code panics on `char::from_u32(..).unwrap()`, modelled as `none`. -/
theorem decode_surrogate_fallback_panics :
    ([0xD8, 0x00] : List Nat).length % 2 = 0 ∧
    Font.decode (fun _ _ => "") ⟨"", some []⟩ [0xD8, 0x00] = none := by
  constructor
  · decide
  · decide

/-- C1 (amended).  For every Font carrying a custom table and every
even-length byte input, provided each 16-bit big-endian code resolves —
through the table when present, to itself otherwise — to a valid Unicode
scalar value, `decode` returns the string whose successive characters have
exactly those resolved scalar values. -/
theorem decode_custom_table_maps_codes
    (decodeText : String → List Nat → String) (encoding : String)
    (unicode_map : List (Nat × Nat)) (text : List Nat)
    (heven : text.length % 2 = 0)
    (hval : ∀ code ∈ toCodes text,
      (mappedScalar unicode_map code).isValidChar) :
    ∃ s : String,
      Font.decode decodeText ⟨encoding, some unicode_map⟩ text = some s ∧
      s.data.map Char.toNat = (toCodes text).map (mappedScalar unicode_map) := by
  obtain ⟨cs, hcs, hmap⟩ := decodeCodes_all_valid unicode_map (toCodes text) hval
  exact ⟨String.mk cs, by simp [Font.decode, hcs], hmap⟩

/-- C1 (witness): the amended theorem applied to the table `{0x41 ↦ 0x42}`
and the input bytes `00 41 00 43`, whose codes decode to `0x42` (mapped)
and `0x43` (fallback). -/
theorem decode_custom_table_maps_codes_witness :
    ([0, 0x41, 0, 0x43] : List Nat).length % 2 = 0 ∧
    (∀ code ∈ toCodes [0, 0x41, 0, 0x43],
      (mappedScalar [(0x41, 0x42)] code).isValidChar) ∧
    ∃ s : String,
      Font.decode (fun _ _ => "") ⟨"", some [(0x41, 0x42)]⟩
        [0, 0x41, 0, 0x43] = some s ∧
      s.data.map Char.toNat =
        (toCodes [0, 0x41, 0, 0x43]).map (mappedScalar [(0x41, 0x42)]) :=
  ⟨by decide, by decide,
   decode_custom_table_maps_codes (fun _ _ => "") "" [(0x41, 0x42)]
     [0, 0x41, 0, 0x43] (by decide) (by decide)⟩

/-- C4 (counterexample).  The claim fails as stated: the odd-length input
`[0x00, 0x41, 0x00]` is not treated as malformed; `chunks_exact(2)`
silently drops the trailing byte and `decode` succeeds with `"A"`. -/
theorem decode_odd_length_succeeds_cex :
    ([0x00, 0x41, 0x00] : List Nat).length % 2 = 1 ∧
    Font.decode (fun _ _ => "") ⟨"", some []⟩ [0x00, 0x41, 0x00] = some "A" := by
  constructor
  · decide
  · decide

/-- C4 (amended).  With a custom table present, `decode` does not require an
even input length: a trailing odd byte is silently ignored, i.e. appending
one byte to an even-length input leaves the result unchanged. -/
theorem decode_drops_trailing_odd_byte
    (decodeText : String → List Nat → String) (encoding : String)
    (unicode_map : List (Nat × Nat)) (text : List Nat) (b : Nat)
    (heven : text.length % 2 = 0) :
    Font.decode decodeText ⟨encoding, some unicode_map⟩ (text ++ [b]) =
      Font.decode decodeText ⟨encoding, some unicode_map⟩ text := by
  simp [Font.decode, toCodes_append_singleton b text heven]

/-- C4 (witness): the amended theorem applied to the even-length input
`[0x00, 0x41]` with the trailing byte `0x37` appended. -/
theorem decode_drops_trailing_odd_byte_witness :
    ([0x00, 0x41] : List Nat).length % 2 = 0 ∧
    Font.decode (fun _ _ => "") ⟨"", some []⟩ ([0x00, 0x41] ++ [0x37]) =
      Font.decode (fun _ _ => "") ⟨"", some []⟩ [0x00, 0x41] :=
  ⟨by decide,
   decode_drops_trailing_odd_byte (fun _ _ => "") "" [] [0x00, 0x41] 0x37
     (by decide)⟩

/-! ## Claim theorems: offset discovery (C2, C7) -/

/-- C2 (code evaluated at the failing input).  For the merged rows at
`y = 100` and `y = 98`, the claim requires the pair (second row against
first row) to tally `offset = 98 - 100 = -2`, recording magnitude 2; the
code instead compares the second row against the initial `previous_y = 0`
(the first row's `y` is never read in phase 1), computes `98 - 0 = 98`,
and records nothing: the histogram comes out empty. -/
theorem upward_offsets_misses_first_pair :
    upward_offsets [⟨"a", 0, 100⟩, ⟨"b", 0, 98⟩] = [] := by decide

/-- C7 (code evaluated at the failing input).  For the merged rows at
`y = -10` and `y = -3` the only consecutive-row offset is
`-3 - (-10) = 7 ≥ 0`, so by the claim the pipeline must fail with the
"no superscript offset" error; instead the code tallies
`-3 - 0 = -3` against the initial `previous_y = 0`, the histogram is
`{3 ↦ 1}`, and the selection succeeds with offset 3. -/
theorem negative_y_defeats_no_signal_error :
    ((-3 : Int) - (-10)) ≥ 0 ∧
    upward_offsets [⟨"a", 0, -10⟩, ⟨"b", 0, -3⟩] = [(3, 1)] ∧
    maxByCount (upward_offsets [⟨"a", 0, -10⟩, ⟨"b", 0, -3⟩]) = some 3 := by
  refine ⟨by decide, by decide, by decide⟩

/-! ## Claim theorems: content interpreter (C10) -/

/-- C10.  The interpreter step on an `ET` instruction emits a text chunk
unconditionally: for every interpreter state — including states with
`in_text = false` (no preceding `BT`) and with an empty accumulator (no
`Tj` inside the block) — it appends the chunk
`{text := current_text, x, y}` and resets the accumulator, never failing. -/
theorem interpretOp_ET_always_emits
    (decodeText : String → List Nat → String)
    (fonts : List (String × Font)) (s : PageState)
    (text_chunks : List TextChunk) (operands : List Obj) :
    interpretOp decodeText fonts (s, text_chunks) ⟨"ET", operands⟩ =
      some ({ s with in_text := false, current_text := "" },
            text_chunks ++ [{ text := s.current_text, x := s.x, y := s.y }]) :=
  rfl

/-! ## Claim theorems: reclassification (C5) -/

/-- C5.  Any row whose `x` has not moved backwards and whose offset from the
tracked baseline satisfies `0 < |offset| ≤ superscript_offset` is emitted
with its text wrapped in `<sub>` when the offset is positive or `<sup>`
when it is negative, at position `(row.x, last_y)` (pinned to the previous
baseline); the tracked state keeps `last_y` and sets `last_x` to `row.x`. -/
theorem reclassify_step_small_offset_pins (superscript_offset : Int)
    (s : ReclassState) (text_chunk : TextChunk)
    (hx : ¬ text_chunk.x < s.last_x)
    (hpos : 0 < |text_chunk.y - s.last_y|)
    (hle : |text_chunk.y - s.last_y| ≤ superscript_offset) :
    reclassifyStep superscript_offset s text_chunk =
      ({ last_x := text_chunk.x, last_y := s.last_y },
       { text := wrapTag
           (if text_chunk.y - s.last_y > 0 then "sub" else "sup")
           text_chunk.text,
         x := text_chunk.x, y := s.last_y }) := by
  have hne : text_chunk.y - s.last_y ≠ 0 := by
    intro h0
    rw [h0] at hpos
    simp at hpos
  unfold reclassifyStep
  rw [if_neg hx, if_pos ⟨hle, hne⟩]

/-- C5 (witness): the theorem applied with superscript offset 2, baseline
state `(0, 100)` and a row `"x"` at `(5, 98)`: the offset is `-2`, so the
row comes out as `<sup>`-wrapped text pinned to `y = 100`. -/
theorem reclassify_step_small_offset_pins_witness :
    ¬ ((5 : Int) < 0) ∧ (0 : Int) < |(98 : Int) - 100| ∧
    |(98 : Int) - 100| ≤ 2 ∧
    reclassifyStep 2 ⟨0, 100⟩ ⟨"x", 5, 98⟩ =
      (⟨5, 100⟩,
       ⟨wrapTag (if (98 : Int) - 100 > 0 then "sub" else "sup") "x", 5, 100⟩) :=
  ⟨by decide, by decide, by decide,
   reclassify_step_small_offset_pins 2 ⟨0, 100⟩ ⟨"x", 5, 98⟩
     (by decide) (by decide) (by decide)⟩

/-! ## Helper lemmas about the row merger -/

theorem mergeAux_head : ∀ (l : List TextChunk) (acc : TextChunk),
    ∃ c rest, mergeAux acc l = c :: rest ∧ c.y = acc.y := by
  intro l
  induction l with
  | nil => exact fun acc => ⟨acc, [], rfl, rfl⟩
  | cons t rest ih =>
    intro acc
    by_cases h : acc.y = t.y
    · obtain ⟨c, r, hc, hy⟩ := ih { acc with text := acc.text ++ t.text }
      refine ⟨c, r, ?_, hy⟩
      rw [h] at hc
      simp [mergeAux, h, hc]
    · exact ⟨acc, mergeAux t rest, by simp [mergeAux, h], rfl⟩

theorem mergeAux_chain : ∀ (l : List TextChunk) (acc : TextChunk),
    List.Chain' (fun a b => a.y ≠ b.y) (mergeAux acc l) := by
  intro l
  induction l with
  | nil => intro acc; simp [mergeAux]
  | cons t rest ih =>
    intro acc
    by_cases h : acc.y = t.y
    · have := ih { acc with text := acc.text ++ t.text }
      simpa [mergeAux, h] using this
    · obtain ⟨c, r, hc, hy⟩ := mergeAux_head rest t
      have hchain := ih t
      rw [hc] at hchain
      rw [show mergeAux acc (t :: rest) = acc :: mergeAux t rest from by
        simp [mergeAux, h], hc]
      exact List.chain'_cons.mpr ⟨by rw [hy]; exact h, hchain⟩

theorem mergeAux_of_chain : ∀ (l : List TextChunk) (acc : TextChunk),
    List.Chain' (fun a b => a.y ≠ b.y) (acc :: l) → mergeAux acc l = acc :: l := by
  intro l
  induction l with
  | nil => intro acc _; rfl
  | cons t rest ih =>
    intro acc hchain
    rw [List.chain'_cons] at hchain
    obtain ⟨hne, htail⟩ := hchain
    rw [show mergeAux acc (t :: rest) = acc :: mergeAux t rest from by
      simp [mergeAux, hne], ih t htail]

/-! ## Claim theorems: row merger (C8, C9) -/

/-- C8.  The row merger is idempotent: adjacent rows in its output always
carry distinct `y` coordinates, so merging an already-merged chunk sequence
returns it unchanged. -/
theorem merge_text_rows_idempotent (text_chunks : List TextChunk) :
    merge_text_rows (merge_text_rows text_chunks) = merge_text_rows text_chunks := by
  cases text_chunks with
  | nil => rfl
  | cons c rest =>
    have hchain := mergeAux_chain rest c
    show merge_text_rows (mergeAux c rest) = mergeAux c rest
    obtain ⟨d, r, hd, _⟩ := mergeAux_head rest c
    rw [hd] at hchain ⊢
    exact mergeAux_of_chain r d hchain

/-- Concatenation of the `text` fields of a chunk list, in order. -/
def textConcat : List TextChunk → String
  | [] => ""
  | text_chunk :: rest => text_chunk.text ++ textConcat rest

theorem mergeAux_textConcat : ∀ (l : List TextChunk) (acc : TextChunk),
    textConcat (mergeAux acc l) = acc.text ++ textConcat l := by
  intro l
  induction l with
  | nil => intro acc; simp [mergeAux, textConcat, String.append_empty]
  | cons t rest ih =>
    intro acc
    by_cases h : acc.y = t.y
    · rw [show mergeAux acc (t :: rest) =
          mergeAux { acc with text := acc.text ++ t.text } rest from by
        simp [mergeAux, h], ih]
      simp [textConcat, String.append_assoc]
    · rw [show mergeAux acc (t :: rest) = acc :: mergeAux t rest from by
        simp [mergeAux, h]]
      simp [textConcat, ih t]

/-- C9.  The row merger neither drops, duplicates, nor reorders text: the
concatenation of the `text` fields of its output equals the concatenation
of the `text` fields of its input. -/
theorem merge_text_rows_preserves_text (text_chunks : List TextChunk) :
    textConcat (merge_text_rows text_chunks) = textConcat text_chunks := by
  cases text_chunks with
  | nil => rfl
  | cons c rest => exact mergeAux_textConcat rest c

/-! ## Helper lemmas about CMap parsing -/

theorem operandToU16_wrong_width :
    ∀ bytes : List Nat, bytes.length ≠ 2 →
      operandToU16 (.string bytes) = none
  | [], _ => rfl
  | [_], _ => rfl
  | [_, _], h => absurd rfl h
  | _ :: _ :: _ :: _, _ => rfl

theorem insertBfChars_none_of_bad :
    ∀ (result : List (Nat × Nat)) (operands : List Obj),
      (∃ op ∈ operands, ∃ bytes, op = Obj.string bytes ∧ bytes.length ≠ 2) →
      insertBfChars result operands = none
  | _, [], h => by simp at h
  | _, [_], _ => rfl
  | result, op1 :: op2 :: rest, h => by
    obtain ⟨op, hop, bytes, rfl, hlen⟩ := h
    have hbad := operandToU16_wrong_width bytes hlen
    rcases List.mem_cons.mp hop with h1 | hop2
    · simp [insertBfChars, ← h1, hbad]
    · rcases List.mem_cons.mp hop2 with h2 | hmem
      · cases h1 : operandToU16 op1 with
        | none => simp [insertBfChars, h1]
        | some key => simp [insertBfChars, h1, ← h2, hbad]
      · cases h1 : operandToU16 op1 with
        | none => simp [insertBfChars, h1]
        | some key =>
          cases h2 : operandToU16 op2 with
          | none => simp [insertBfChars, h1, h2]
          | some value =>
            simp only [insertBfChars, h1, h2, Option.bind_eq_bind,
              Option.some_bind]
            exact insertBfChars_none_of_bad (mapInsert key value result) rest
              ⟨_, hmem, bytes, rfl, hlen⟩

theorem parseEndBfChar_none_of_bad (result : List (Nat × Nat))
    (operands : List Obj)
    (h : operands.length % 2 = 1 ∨
      ∃ op ∈ operands, ∃ bytes, op = Obj.string bytes ∧ bytes.length ≠ 2) :
    parseEndBfChar result operands = none := by
  rcases h with hodd | hbad
  · unfold parseEndBfChar
    rw [if_neg (by omega)]
  · by_cases heven : operands.length % 2 = 0
    · unfold parseEndBfChar
      rw [if_pos heven]
      exact insertBfChars_none_of_bad result operands hbad
    · unfold parseEndBfChar
      rw [if_neg heven]

theorem parseUnicodeMapOps_none_of_bad :
    ∀ (operations : List Operation) (result : List (Nat × Nat)),
      (∃ operation ∈ operations, operation.operator = "endbfchar" ∧
        (operation.operands.length % 2 = 1 ∨
         ∃ op ∈ operation.operands, ∃ bytes,
           op = Obj.string bytes ∧ bytes.length ≠ 2)) →
      parseUnicodeMapOps result operations = none
  | [], _, h => by simp at h
  | operation :: rest, result, h => by
    obtain ⟨op0, hmem, hop0⟩ := h
    rcases List.mem_cons.mp hmem with h1 | hmem2
    · subst h1
      simp [parseUnicodeMapOps, hop0.1,
        parseEndBfChar_none_of_bad result _ hop0.2]
    · by_cases hopr : operation.operator = "endbfchar"
      · cases hpe : parseEndBfChar result operation.operands with
        | none => simp [parseUnicodeMapOps, hopr, hpe]
        | some r =>
          simp only [parseUnicodeMapOps, hopr, if_true, hpe,
            Option.bind_eq_bind, Option.some_bind]
          exact parseUnicodeMapOps_none_of_bad rest r ⟨op0, hmem2, hop0⟩
      · simp only [parseUnicodeMapOps, hopr, if_false]
        exact parseUnicodeMapOps_none_of_bad rest result ⟨op0, hmem2, hop0⟩

/-! ## Claim theorems: CMap parsing (C6) -/

/-- C6.  Parsing the embedded code-to-Unicode table fails (a fatal
malformed-font error, modelled as `none`) whenever some `endbfchar`
instruction in the stream has an odd number of operands, or has an operand
whose encoded byte string is not exactly 2 bytes long. -/
theorem parse_unicode_map_malformed_endbfchar_fails
    (operations : List Operation) (operation : Operation)
    (hmem : operation ∈ operations)
    (hop : operation.operator = "endbfchar")
    (hbad : operation.operands.length % 2 = 1 ∨
      ∃ op ∈ operation.operands, ∃ bytes,
        op = Obj.string bytes ∧ bytes.length ≠ 2) :
    parse_unicode_map operations = none :=
  parseUnicodeMapOps_none_of_bad operations [] ⟨operation, hmem, hop, hbad⟩

/-- C6 (witness): an `endbfchar` instruction with three (an odd number of)
2-byte operands makes the whole parse fail. -/
theorem parse_unicode_map_malformed_endbfchar_fails_witness :
    ([Obj.string [0, 65], Obj.string [0, 66], Obj.string [0, 67]].length % 2
      = 1) ∧
    parse_unicode_map
      [⟨"endbfchar",
        [Obj.string [0, 65], Obj.string [0, 66], Obj.string [0, 67]]⟩] =
      none :=
  ⟨by decide,
   parse_unicode_map_malformed_endbfchar_fails _
     ⟨"endbfchar", [Obj.string [0, 65], Obj.string [0, 66], Obj.string [0, 67]]⟩
     (List.mem_singleton.mpr rfl) rfl (Or.inl (by decide))⟩

/-! ## Helper lemmas about the superscript-offset selection -/

theorem maxByCountAux_spec : ∀ (l : List (Int × Nat)) (best : Int × Nat),
    maxByCountAux best l ∈ best :: l ∧
    best.2 ≤ (maxByCountAux best l).2 ∧
    ∀ p ∈ l, p.2 ≤ (maxByCountAux best l).2 := by
  intro l
  induction l with
  | nil => exact fun best => ⟨List.mem_cons_self _ _, le_refl _, by simp⟩
  | cons q rest ih =>
    intro best
    by_cases h : best.2 > q.2
    · obtain ⟨hmem, hle, hall⟩ := ih best
      rw [show maxByCountAux best (q :: rest) = maxByCountAux best rest from by
        simp [maxByCountAux, h]]
      refine ⟨?_, hle, ?_⟩
      · rcases List.mem_cons.mp hmem with h1 | h1
        · rw [h1]; exact List.mem_cons_self _ _
        · exact List.mem_cons_of_mem _ (List.mem_cons_of_mem _ h1)
      · intro p hp
        rcases List.mem_cons.mp hp with h1 | h1
        · rw [h1]; exact le_trans (le_of_lt h) hle
        · exact hall p h1
    · obtain ⟨hmem, hle, hall⟩ := ih q
      rw [show maxByCountAux best (q :: rest) = maxByCountAux q rest from by
        simp [maxByCountAux, h]]
      refine ⟨List.mem_cons_of_mem _ hmem, le_trans (Nat.not_lt.mp h) hle, ?_⟩
      intro p hp
      rcases List.mem_cons.mp hp with h1 | h1
      · rw [h1]; exact hle
      · exact hall p h1

theorem maxByCountAux_last_tie : ∀ (l : List (Int × Nat)) (best : Int × Nat),
    (best :: l).Pairwise (fun a b => a.1 < b.1) →
    ∀ p ∈ best :: l, p.2 = (maxByCountAux best l).2 →
      p.1 ≤ (maxByCountAux best l).1 := by
  intro l
  induction l with
  | nil =>
    intro best _ p hp _
    rw [List.mem_singleton.mp hp]
    simp [maxByCountAux]
  | cons q rest ih =>
    intro best hpw p hp htie
    rw [List.pairwise_cons] at hpw
    obtain ⟨hbest_lt, hpw_tail⟩ := hpw
    by_cases h : best.2 > q.2
    · have heq : maxByCountAux best (q :: rest) = maxByCountAux best rest := by
        simp [maxByCountAux, h]
      rw [heq] at htie ⊢
      have hpw2 : (best :: rest).Pairwise (fun a b => a.1 < b.1) := by
        rw [List.pairwise_cons]
        exact ⟨fun b hb => hbest_lt b (List.mem_cons_of_mem _ hb),
               (List.pairwise_cons.mp hpw_tail).2⟩
      rcases List.mem_cons.mp hp with h1 | h1
      · exact ih best hpw2 p (by rw [h1]; exact List.mem_cons_self _ _) htie
      · rcases List.mem_cons.mp h1 with h2 | h2
        · exfalso
          have hspec := maxByCountAux_spec rest best
          have hlt : q.2 < (maxByCountAux best rest).2 :=
            lt_of_lt_of_le h hspec.2.1
          rw [h2] at htie
          omega
        · exact ih best hpw2 p (List.mem_cons_of_mem _ h2) htie
    · have heq : maxByCountAux best (q :: rest) = maxByCountAux q rest := by
        simp [maxByCountAux, h]
      rw [heq] at htie ⊢
      rcases List.mem_cons.mp hp with h1 | h1
      · have hspec := maxByCountAux_spec rest q
        have hlt : best.1 < (maxByCountAux q rest).1 := hbest_lt _ hspec.1
        rw [h1]
        exact le_of_lt hlt
      · exact ih q hpw_tail p h1 htie

/-! ## Claim theorems: superscript-offset selection (C3) -/

/-- C3 (counterexample).  The claim fails as stated: the row sequence below
produces the offset histogram `{2 ↦ 3, 3 ↦ 3}`, where the magnitudes 2 and
3 tie for the highest count; the selection returns 3, the LAST magnitude in
ascending key order, not the first (smallest) one the claim requires. -/
theorem superscript_offset_tie_picks_largest_cex :
    upward_offsets [⟨"r0", 0, 100⟩, ⟨"r1", 0, 10⟩, ⟨"r2", 0, 8⟩, ⟨"r3", 0, 6⟩,
      ⟨"r4", 0, 4⟩, ⟨"r5", 0, 1⟩, ⟨"r6", 0, -2⟩, ⟨"r7", 0, -5⟩] =
      [(2, 3), (3, 3)] ∧
    maxByCount [(2, 3), (3, 3)] = some 3 := by
  exact ⟨by decide, by decide⟩

/-- C3 (amended).  On a nonempty histogram whose keys are strictly
ascending (as they are for an ordered map), the selected superscript offset
is a magnitude with the highest occurrence count, and when several
magnitudes tie for the highest count, the magnitude LAST encountered in
ascending key order — the largest tied magnitude — is selected. -/
theorem maxByCount_picks_max_count_last_tie (hist : List (Int × Nat))
    (hsorted : hist.Pairwise (fun a b => a.1 < b.1)) (hne : hist ≠ []) :
    ∃ k, maxByCount hist = some k ∧
      ∃ c, (k, c) ∈ hist ∧ (∀ p ∈ hist, p.2 ≤ c) ∧
        (∀ p ∈ hist, p.2 = c → p.1 ≤ k) := by
  match hist with
  | [] => exact absurd rfl hne
  | q :: rest =>
    have hspec := maxByCountAux_spec rest q
    have htie := maxByCountAux_last_tie rest q hsorted
    refine ⟨(maxByCountAux q rest).1, rfl, (maxByCountAux q rest).2, ?_, ?_, ?_⟩
    · exact Prod.mk.eta ▸ hspec.1
    · intro p hp
      rcases List.mem_cons.mp hp with h1 | h1
      · rw [h1]; exact hspec.2.1
      · exact hspec.2.2 p h1
    · exact fun p hp h => htie p hp h

/-- C3 (witness): the amended theorem applied to the tied histogram
`{2 ↦ 3, 3 ↦ 3}`. -/
theorem maxByCount_picks_max_count_last_tie_witness :
    ([(2, 3), (3, 3)] : List (Int × Nat)).Pairwise (fun a b => a.1 < b.1) ∧
    ∃ k, maxByCount [(2, 3), (3, 3)] = some k ∧
      ∃ c, (k, c) ∈ ([(2, 3), (3, 3)] : List (Int × Nat)) ∧
        (∀ p ∈ ([(2, 3), (3, 3)] : List (Int × Nat)), p.2 ≤ c) ∧
        (∀ p ∈ ([(2, 3), (3, 3)] : List (Int × Nat)), p.2 = c → p.1 ≤ k) :=
  ⟨by decide,
   maxByCount_picks_max_count_last_tie [(2, 3), (3, 3)] (by decide) (by decide)⟩
